import Mathlib

/-!
Verification of the OriginBrain incremental vector index, hybrid search engine
and background job scheduler (`src/brain/accelerated_search.py` and
`src/brain/job_scheduler.py`), against the natural-language specification.

Modelling conventions (shallow embedding):
* Python floats are modelled by exact numbers: stored metadata, embedding
  components and faiss scores by `ℚ`; derived quantities that pass through
  `np.sqrt` (distances, cosine similarities, hybrid scores) by `ℝ` with
  `Real.sqrt`.  Float rounding is not modelled.
* The database (`BrainDB`, an external Postgres-backed collaborator) is
  modelled as a record of abstract response functions, one per method the
  search engine calls.  `get_artifacts_for_indexing` may fail (storage
  unreachable), modelled with `Except`.
* A raised Python exception is an `Except.error`; a caught exception is a
  branch on that error value.
* Python `dict` (insertion ordered) is an association list; `d[k] = v`
  replaces in place when the key exists and appends otherwise.
* Python `list.sort` / `sorted` (stable, ascending on the key, `reverse=True`
  for descending) is `List.insertionSort` on the corresponding key relation,
  which is likewise stable.
* faiss `IndexFlatL2.search` returns the `k` smallest squared-L2 scores with
  their row positions, and raises on a query whose dimension differs from the
  index dimension; it is modelled by `faiss_topk`.
-/

/-! ## Data model -/

/-- A snapshot of an artifact row as the search engine reads it from the
database: id, optional embedding vector, and the attributes used by
`_passes_filters`. -/
structure Artifact where
  id : String
  embedding : Option (List ℚ) := none
  consumption_status : Option String := none
  importance_score : Option ℚ := none
  created_at : Option ℚ := none
  deriving DecidableEq

/-- The optional filter dictionary accepted by the search operations.  A `none`
field models an absent key. -/
structure Filters where
  consumption_status : Option (List String) := none
  min_importance : Option ℚ := none
  date_from : Option ℚ := none
  date_to : Option ℚ := none

/-- The external database collaborator: one abstract response per `BrainDB`
method the search engine calls.  `get_artifacts_for_indexing` can fail with a
storage error; the other calls are modelled as total. -/
structure BrainDB where
  get_artifacts_for_indexing : Except String (List Artifact)
  get_artifact_count_since : ℚ → ℕ
  get_artifact_extended : String → Option Artifact
  get_artifacts_with_extended : List Artifact
  search_artifacts : String → ℕ → Option Filters → List Artifact

/-- The mutable state of `AcceleratedSearch`: configured embedding dimension,
the vectors currently stored in the faiss index (`index.ntotal` is
`index.length`), the position-to-artifact-id mapping, and the last rebuild
timestamp. -/
structure SearchState where
  embedding_dim : ℕ
  index : List (List ℚ)
  id_map : List String
  last_updated : Option ℚ

/-- Result of `rebuild_index`: the four dictionary shapes the method returns. -/
inductive RebuildReport where
  | upToDate (new_artifacts : ℕ)
  | noArtifacts
  | noValidEmbeddings
  | success (indexed_artifacts : ℕ) (index_size : ℕ) (last_updated : ℚ)
  | error (msg : String)
  deriving DecidableEq

/-- One entry of the result list of `search_similar` / `_fallback_search`:
the artifact, the raw similarity score and the reported distance. -/
structure SearchResult where
  artifact : Artifact
  similarity_score : ℝ
  distance : ℝ

/-! ## `_passes_filters` -/

/-- Embedding of `AcceleratedSearch._passes_filters`.  `artifact.get(k)` with a
missing key is `none`; `None in allowed` is false in Python, so an artifact
without a consumption status fails a status filter; a date filter is skipped
when `created_at` is falsy. -/
def passes_filters (a : Artifact) (f : Option Filters) : Bool :=
  match f with
  | none => true
  | some f =>
    (match f.consumption_status with
     | some allowed => match a.consumption_status with
       | some s => decide (s ∈ allowed)
       | none => false
     | none => true)
    && (match f.min_importance with
     | some m => decide (m ≤ a.importance_score.getD 0)
     | none => true)
    && (match f.date_from, a.created_at with
     | some d, some c => decide (d ≤ c)
     | _, _ => true)
    && (match f.date_to, a.created_at with
     | some d, some c => decide (c ≤ d)
     | _, _ => true)

/-! ## `rebuild_index` -/

/-- The per-artifact validity test of the rebuild loop: the Python truthiness
test `if artifact.get('embedding')` (absent or empty embeddings are skipped)
followed by the dimension check `len(embedding) == self.embedding_dim`. -/
def valid_pair (dim : ℕ) (a : Artifact) : Option (String × List ℚ) :=
  match a.embedding with
  | some e => if e ≠ [] ∧ e.length = dim then some (a.id, e) else none
  | none => none

/-- The body of `rebuild_index` after the staleness check (the code guarded by
`self.update_lock`).  The source resets `self.id_map = []` and refills it while
scanning the artifact list, so by the time of the `if not embeddings` early
return the previous mapping has already been overwritten, while `self.index`
still holds the previous generation. -/
def rebuild_core (db : BrainDB) (now : ℚ) (s : SearchState) :
    SearchState × RebuildReport :=
  match db.get_artifacts_for_indexing with
  | .error e => (s, .error e)
  | .ok artifacts =>
    if artifacts.isEmpty then (s, .noArtifacts)
    else
      let valid := artifacts.filterMap (valid_pair s.embedding_dim)
      let new_id_map := valid.map (·.1)
      let embs := valid.map (·.2)
      if embs.isEmpty then
        ({ s with id_map := new_id_map }, .noValidEmbeddings)
      else
        ({ s with index := embs, id_map := new_id_map, last_updated := some now },
         .success embs.length embs.length now)

/-- Embedding of `AcceleratedSearch.rebuild_index`.  With `force` false and a
previous successful rebuild, fewer than 50 artifacts added since then makes the
call return early without touching any state. -/
def rebuild_index (db : BrainDB) (now : ℚ) (s : SearchState) (force : Bool) :
    SearchState × RebuildReport :=
  match force, s.last_updated with
  | false, some t =>
    let recent := db.get_artifact_count_since t
    if recent < 50 then (s, .upToDate recent) else rebuild_core db now s
  | _, _ => rebuild_core db now s

/-! ## Rebuild lemmas -/

/-- On a list of artifacts that all carry an embedding, and a positive
configured dimension, the rebuild loop keeps exactly the artifacts whose
embedding length matches the dimension, pairing each id with its embedding in
list order. -/
lemma filterMap_valid_pair_eq (dim : ℕ) (hdim : 0 < dim) :
    ∀ A : List Artifact, (∀ a ∈ A, a.embedding ≠ none) →
      A.filterMap (valid_pair dim)
        = (A.filter (fun a => decide ((a.embedding.getD []).length = dim))).map
            (fun a => (a.id, a.embedding.getD [])) := by
  intro A
  induction A with
  | nil => simp
  | cons a rest ih =>
    intro h
    have hrest := fun b hb => h b (List.mem_cons_of_mem a hb)
    cases he : a.embedding with
    | none => exact absurd he (h a (List.mem_cons_self a rest))
    | some e =>
      by_cases hlen : e.length = dim
      · have hne : e ≠ [] := by
          intro h0
          rw [h0] at hlen
          simp at hlen
          omega
        simp [List.filterMap_cons, List.filter_cons, valid_pair, he, hlen, hne,
          ih hrest]
      · simp [List.filterMap_cons, List.filter_cons, valid_pair, he, hlen,
          ih hrest]

/-- C6: with `force` false, a previous successful rebuild, and fewer than 50
artifacts added since it, `rebuild_index` is a no-op returning the skipped
new-artifact count: the state (index contents, position-to-id mapping, index
size and generation timestamp) is returned exactly unchanged. -/
theorem rebuild_skip_noop (db : BrainDB) (now t : ℚ) (s : SearchState)
    (hlast : s.last_updated = some t)
    (hcount : db.get_artifact_count_since t < 50) :
    rebuild_index db now s false = (s, .upToDate (db.get_artifact_count_since t)) := by
  unfold rebuild_index
  rw [hlast]
  simp [hcount]

/-- Concrete instantiation for `rebuild_skip_noop`: 3 new artifacts since the
last rebuild, threshold not reached, the state is returned untouched. -/
def dbSkip : BrainDB where
  get_artifacts_for_indexing := .ok []
  get_artifact_count_since := fun _ => 3
  get_artifact_extended := fun _ => none
  get_artifacts_with_extended := []
  search_artifacts := fun _ _ _ => []

/-- A small index generation used by the `rebuild_skip_noop` witness. -/
def sSkip : SearchState := ⟨2, [[1, 0]], ["a"], some 1⟩

/-- Witness for C6 at a concrete database and index state. -/
theorem rebuild_skip_noop_witness :
    sSkip.last_updated = some 1 ∧ dbSkip.get_artifact_count_since 1 < 50 ∧
      rebuild_index dbSkip 9 sSkip false = (sSkip, .upToDate 3) :=
  ⟨rfl, by decide, rebuild_skip_noop dbSkip 9 1 sSkip rfl (by decide)⟩

/-- C7: a rebuild over a nonempty artifact list (each row carrying an
embedding, as `get_artifacts_for_indexing`'s SQL guarantees) never reports an
error because of dimension mismatches; mismatched vectors are dropped
one by one and the resulting position-to-id mapping is exactly the list of
surviving artifacts' ids, in the order of the filtered artifact list. -/
theorem rebuild_id_map_order (db : BrainDB) (now : ℚ) (s : SearchState)
    (A : List Artifact)
    (hdim : 0 < s.embedding_dim)
    (hA : db.get_artifacts_for_indexing = .ok A)
    (hne : A ≠ [])
    (hemb : ∀ a ∈ A, a.embedding ≠ none) :
    (rebuild_index db now s true).1.id_map
      = (A.filter (fun a =>
          decide ((a.embedding.getD []).length = s.embedding_dim))).map (·.id)
    ∧ ∀ m, (rebuild_index db now s true).2 ≠ .error m := by
  have hcore : rebuild_index db now s true = rebuild_core db now s := by
    unfold rebuild_index
    cases s.last_updated <;> rfl
  rw [hcore]
  unfold rebuild_core
  rw [hA]
  have hempty : A.isEmpty = false := by
    cases A with
    | nil => exact absurd rfl hne
    | cons a l => rfl
  dsimp only
  rw [filterMap_valid_pair_eq s.embedding_dim hdim A hemb]
  simp only [hempty, Bool.false_eq_true, if_false, List.map_map]
  constructor
  · split <;> simp [Function.comp]
  · intro m
    split <;> simp

/-- Concrete database for the `rebuild_id_map_order` witness: one artifact of
the configured dimension 2 and one mismatched artifact of dimension 3. -/
def dbMix : BrainDB where
  get_artifacts_for_indexing :=
    .ok [{ id := "good", embedding := some [1, 0] },
         { id := "bad", embedding := some [1, 0, 5] }]
  get_artifact_count_since := fun _ => 0
  get_artifact_extended := fun _ => none
  get_artifacts_with_extended := []
  search_artifacts := fun _ _ _ => []

/-- An empty index generation of dimension 2 used by rebuild witnesses. -/
def sEmpty2 : SearchState := ⟨2, [], [], none⟩

/-- Witness for C7: rebuilding over one matching and one mismatched artifact
keeps only the matching id, in order, and reports no error. -/
theorem rebuild_id_map_order_witness :
    (rebuild_index dbMix 4 sEmpty2 true).1.id_map = ["good"]
    ∧ (rebuild_index dbMix 4 sEmpty2 true).2 ≠ .error "storage down" := by
  have h := rebuild_id_map_order dbMix 4 sEmpty2
    [{ id := "good", embedding := some [1, 0] },
     { id := "bad", embedding := some [1, 0, 5] }]
    (by decide) rfl (by decide) (by decide)
  exact ⟨by rw [h.1]; rfl, h.2 "storage down"⟩

/-- The previous index generation for C3: one stored vector and a consistent
one-entry mapping (the invariant `count == len(mapping)` holds). -/
def sBug : SearchState := ⟨2, [[1, 0]], ["a"], some 0⟩

/-- Database for C3: the next rebuild sees a single artifact whose embedding
has the wrong dimension, so no valid embedding survives. -/
def dbBug : BrainDB where
  get_artifacts_for_indexing := .ok [{ id := "b", embedding := some [1, 0, 0] }]
  get_artifact_count_since := fun _ => 0
  get_artifact_extended := fun _ => none
  get_artifacts_with_extended := []
  search_artifacts := fun _ _ _ => []

/-- C3 is violated by the code: `rebuild_index` resets `self.id_map` before
the `if not embeddings` early return, so a rebuild that finds artifacts but no
valid embeddings returns without swapping the index, leaving the previous
generation's vectors in place under an emptied mapping.  The invariant
`count == len(mapping)` held before the call and is broken after it, and the
previous generation is not left exactly as it was (its mapping is gone). -/
theorem rebuild_no_valid_embeddings_breaks_invariant :
    sBug.index.length = sBug.id_map.length
    ∧ (rebuild_index dbBug 5 sBug true).2 = .noValidEmbeddings
    ∧ (rebuild_index dbBug 5 sBug true).1.index = sBug.index
    ∧ (rebuild_index dbBug 5 sBug true).1.id_map = []
    ∧ (rebuild_index dbBug 5 sBug true).1.index.length
        ≠ (rebuild_index dbBug 5 sBug true).1.id_map.length := by
  decide

/-! ## Job scheduler (`src/brain/job_scheduler.py`) -/

/-- The five job states of `JobStatus`. -/
inductive JobStatus where
  | pending
  | running
  | completed
  | failed
  | retrying
  deriving DecidableEq, Repr

/-- The `Job` dataclass.  The work unit `func(*args, **kwargs)` is modelled by
`run`, a function from the attempt's current retry count to the outcome
(`Except.error` models a raised exception, whose message becomes the job's
error message). -/
structure SJob where
  priority : ℤ
  id : String
  run : ℕ → Except String Unit
  retry_count : ℕ := 0
  max_retries : ℕ := 3
  delay : ℚ := 0
  status : JobStatus := .pending
  created_at : ℚ := 0
  error_message : String := ""

/-- The comparison generated by `dataclass(order=True)` on `Job`: every field
except `priority` is declared `compare=False`, so jobs are ordered by the
priority number alone. -/
def jobLt (a b : SJob) : Bool := decide (a.priority < b.priority)

/-- The snapshot dictionary returned by `get_job_status`. -/
structure JobSnapshot where
  id : String
  status : JobStatus
  priority : ℤ
  retry_count : ℕ
  created_at : ℚ
  error_message : String
  deriving DecidableEq

/-- Projection of a job to its status snapshot. -/
def snapshot_of (j : SJob) : JobSnapshot :=
  ⟨j.id, j.status, j.priority, j.retry_count, j.created_at, j.error_message⟩

/-- Python dict lookup on an insertion-ordered association list. -/
def dictGet {β : Type} : List (String × β) → String → Option β
  | [], _ => none
  | p :: rest, k => if p.1 = k then some p.2 else dictGet rest k

/-- Python dict assignment: replace in place when the key is present, append
otherwise. -/
def dictSet {β : Type} : List (String × β) → String → β → List (String × β)
  | [], k, v => [(k, v)]
  | p :: rest, k, v => if p.1 = k then (k, v) :: rest else p :: dictSet rest k v

/-- Python `del d[k]` (removes the entry with the key, if present). -/
def dictRemove {β : Type} : List (String × β) → String → List (String × β)
  | [], _ => []
  | p :: rest, k => if p.1 = k then rest else p :: dictRemove rest k

/-- Mutation of a job object that the dict may alias: the entry is updated in
place when the key is present; when the object was already deleted from the
dict (a cancelled job), the mutation is invisible to the dict and nothing is
re-added. -/
def dictAliasSet {β : Type} : List (String × β) → String → β → List (String × β)
  | [], _, _ => []
  | p :: rest, k, v => if p.1 = k then (k, v) :: rest else p :: dictAliasSet rest k v

/-- The scheduler state: the flags and containers of `JobScheduler`, the
armed `threading.Timer` callbacks, the jobs a worker thread has dequeued and
(under the lock) membership-checked but not yet started executing — the
worker's local `job` variable between releasing the lock and entering
`_execute_job` — and ghost observation logs (`status_log` records every
assignment to a job's status field, including the initial `pending` of the
constructor; `executed` records every invocation of a job's work function;
`timer_log` records the delay of every timer armed). -/
structure SchedState where
  running : Bool := true
  jobs : List (String × SJob) := []
  completed_jobs : List (String × SJob) := []
  job_queue : List SJob := []
  claimed : List SJob := []
  timers : List (ℚ × SJob) := []
  status_log : List (String × JobStatus) := []
  executed : List String := []
  timer_log : List ℚ := []

/-- The initial state of a started scheduler with an empty queue. -/
def sched_init : SchedState := {}

/-- `PriorityQueue.get`: remove and return a job that is minimal for the
`Job` ordering (priority only).  The heap's choice among equal priorities is
unspecified; this model deterministically takes the earliest minimal one. -/
def popMin : List SJob → Option (SJob × List SJob)
  | [] => none
  | j :: rest =>
    match popMin rest with
    | some (m, rest') => if jobLt m j then some (m, j :: rest') else some (j, rest)
    | none => some (j, [])

/-- Embedding of `JobScheduler.add_job`: a fresh `Job` is constructed with
default status/retry/error fields, registered under its id, and either
enqueued immediately or armed on a timer when `delay > 0`.  The call always
returns (it never blocks on the job). -/
def add_job (st0 : SchedState) (j0 : SJob) : SchedState :=
  let j := { j0 with status := JobStatus.pending, retry_count := 0,
                     error_message := "" }
  let st := { st0 with jobs := dictSet st0.jobs j.id j,
                       status_log := st0.status_log ++ [(j.id, JobStatus.pending)] }
  if 0 < j.delay then
    { st with timers := st.timers ++ [(j.delay, j)], timer_log := st.timer_log ++ [j.delay] }
  else { st with job_queue := st.job_queue ++ [j] }

/-- Embedding of `JobScheduler._queue_delayed_job` (a timer callback): the job
is enqueued only if the scheduler is running and the job has not been
cancelled meanwhile; its status is not changed. -/
def queue_delayed_job (st : SchedState) (j : SJob) : SchedState :=
  if st.running then
    match dictGet st.jobs j.id with
    | some _ => { st with job_queue := st.job_queue ++ [j] }
    | none => st
  else st

/-- Embedding of `JobScheduler.cancel_job`: succeeds only when the job is
registered and still `pending`, in which case the entry is deleted. -/
def cancel_job (st : SchedState) (job_id : String) : SchedState × Bool :=
  match dictGet st.jobs job_id with
  | some j =>
    if j.status = JobStatus.pending then
      ({ st with jobs := dictRemove st.jobs job_id }, true)
    else (st, false)
  | none => (st, false)

/-- Embedding of `JobScheduler.get_job_status`: look in the live map first,
then among retained completed/failed jobs. -/
def get_job_status (st : SchedState) (job_id : String) : Option JobSnapshot :=
  match dictGet st.jobs job_id with
  | some j => some (snapshot_of j)
  | none => (dictGet st.completed_jobs job_id).map snapshot_of

/-- Embedding of `JobScheduler._execute_job` (runs without the scheduler
lock until the final bookkeeping).  The job object may be aliased by the
`self.jobs` entry, so its status assignments are visible through the map
exactly when the entry is still present (`dictAliasSet`); a job deleted from
the map meanwhile is mutated invisibly.  An exception from the work function
is caught here: it is recorded as the job's error message and drives the
retry path (`2 ** retry_count` backoff timer) while retries remain, else the
job becomes `failed` and is moved to `completed_jobs`; nothing is ever
re-raised. -/
def execute_job (st0 : SchedState) (j0 : SJob) : SchedState :=
  let j := { j0 with status := JobStatus.running }
  let st := { st0 with jobs := dictAliasSet st0.jobs j.id j,
                       status_log := st0.status_log ++ [(j.id, JobStatus.running)],
                       executed := st0.executed ++ [j.id] }
  match j.run j.retry_count with
  | .ok _ =>
    let jc := { j with status := JobStatus.completed }
    { st with jobs := dictRemove st.jobs j.id,
              completed_jobs := dictSet st.completed_jobs j.id jc,
              status_log := st.status_log ++ [(j.id, JobStatus.completed)] }
  | .error e =>
    if j.retry_count < j.max_retries then
      let jr := { j with error_message := e, retry_count := j.retry_count + 1,
                         status := JobStatus.retrying }
      { st with jobs := dictAliasSet st.jobs j.id jr,
                timers := st.timers ++ [((2 : ℚ) ^ jr.retry_count, jr)],
                timer_log := st.timer_log ++ [(2 : ℚ) ^ jr.retry_count],
                status_log := st.status_log ++ [(j.id, JobStatus.retrying)] }
    else
      let jf := { j with error_message := e, status := JobStatus.failed }
      { st with jobs := dictRemove st.jobs j.id,
                completed_jobs := dictSet st.completed_jobs j.id jf,
                status_log := st.status_log ++ [(j.id, JobStatus.failed)] }

/-- Lines 199-211 of `JobScheduler._worker`: one queue poll followed by the
lock-protected membership check `if job.id not in self.jobs: continue`.  A
dequeued job whose id is gone from `self.jobs` was cancelled and is skipped;
otherwise the worker holds it (in its local `job` variable, modelled by
`claimed`) and releases the lock.  Crucially, the job's status is not touched
here: `job.status = RUNNING` happens only later, inside `_execute_job`, so
between this step and `worker_run` the map entry still reads `pending`. -/
def worker_claim (st : SchedState) : SchedState :=
  if st.running then
    match popMin st.job_queue with
    | some (j, rest) =>
      let st1 := { st with job_queue := rest }
      match dictGet st1.jobs j.id with
      | some _ => { st1 with claimed := st1.claimed ++ [j] }
      | none => st1
    | none => st
  else st

/-- Line 214 of `JobScheduler._worker`: the worker, already past its
membership check and no longer holding the lock, runs `_execute_job` on the
job it claimed. -/
def worker_run (st : SchedState) (i : ℕ) : SchedState :=
  match st.claimed.get? i with
  | some j => execute_job { st with claimed := st.claimed.eraseIdx i } j
  | none => st

/-- A pending `threading.Timer` fires, invoking `_queue_delayed_job`. -/
def fire_timer (st : SchedState) (i : ℕ) : SchedState :=
  match st.timers.get? i with
  | some p => queue_delayed_job { st with timers := st.timers.eraseIdx i } p.2
  | none => st

/-- Embedding of `JobScheduler._cleanup_old_jobs` at time `now`: completed and
failed jobs created more than one hour (3600 time units) ago are purged. -/
def cleanup_old_jobs (st : SchedState) (now : ℚ) : SchedState :=
  { st with completed_jobs :=
      st.completed_jobs.filter (fun p => !decide (p.2.created_at < now - 3600)) }

/-- The atomic steps of the running scheduler, at the granularity of its
locks: a worker's dequeue-and-check (`claim`) is separate from its unlocked
execution (`run`), because the source releases `self.lock` before
`_execute_job` starts. -/
inductive SchedOp where
  | claim
  | run (i : ℕ)
  | fireTimer (i : ℕ)
  | submit (j : SJob)
  | cancel (job_id : String)
  | cleanup (now : ℚ)

/-- Interpreter of one scheduler step. -/
def apply_op (st : SchedState) : SchedOp → SchedState
  | .claim => worker_claim st
  | .run i => worker_run st i
  | .fireTimer i => fire_timer st i
  | .submit j => add_job st j
  | .cancel job_id => (cancel_job st job_id).1
  | .cleanup now => cleanup_old_jobs st now

/-- Interpreter of a finite schedule of steps. -/
def apply_ops (st : SchedState) : List SchedOp → SchedState
  | [] => st
  | op :: rest => apply_ops (apply_op st op) rest

/-- The successive values taken by one job's status field. -/
def status_trace (st : SchedState) (job_id : String) : List JobStatus :=
  (st.status_log.filter (fun p => decide (p.1 = job_id))).map (·.2)

/-- How many times one job's work function has been invoked. -/
def exec_count (st : SchedState) (job_id : String) : ℕ :=
  (st.executed.filter (fun i => decide (i = job_id))).length

/-! ## C4: retry lifecycle of an always-failing job -/

/-- The schedule that drives one submitted job to exhaustion under a single
worker: each attempt is one claim-then-run pair, and each retry timer fires
before the worker picks the job up again. -/
def retry_schedule (j : SJob) : List SchedOp :=
  [.submit j, .claim, .run 0, .fireTimer 0, .claim, .run 0,
   .fireTimer 0, .claim, .run 0]

/-- C4 (amended): a job with `maxRetries=2` whose work function raises on
every attempt is executed exactly three times, its status field passes through
`pending, running, retrying, running, retrying, running, failed` (the status
is never reset to `pending` between retries: `_queue_delayed_job` re-enqueues
the job while it still reads `retrying`), each retry is re-enqueued after
`2 ** retry_count` time units (2, then 4), the raised message is recorded as
the job's error, and the job ends `failed` in the retained map (terminal; the
exception is caught in `_execute_job` and never re-raised). -/
theorem job_retry_lifecycle (j : SJob) (msg : String)
    (hmax : j.max_retries = 2)
    (hdelay : j.delay = 0)
    (hrun : ∀ n, j.run n = .error msg) :
    status_trace (apply_ops sched_init (retry_schedule j)) j.id
      = [.pending, .running, .retrying, .running, .retrying, .running, .failed]
    ∧ exec_count (apply_ops sched_init (retry_schedule j)) j.id = 3
    ∧ (apply_ops sched_init (retry_schedule j)).timer_log = [2, 4]
    ∧ get_job_status (apply_ops sched_init (retry_schedule j)) j.id
        = some ⟨j.id, .failed, j.priority, 2, j.created_at, msg⟩ := by
  refine ⟨?_, ?_, ?_, ?_⟩ <;>
    simp [retry_schedule, apply_ops, apply_op, sched_init, add_job,
      worker_claim, worker_run, fire_timer, queue_delayed_job, execute_job,
      popMin, dictGet, dictSet, dictAliasSet, dictRemove, List.eraseIdx,
      status_trace, exec_count, get_job_status, snapshot_of,
      hmax, hdelay, hrun, show ((2 : ℚ) ^ 2 = 4) from by norm_num]

/-- A concrete always-failing job with `maxRetries=2`. -/
def jAlwaysFail : SJob :=
  { priority := 5, id := "j1", run := fun _ => .error "boom", max_retries := 2 }

/-- Witness for `job_retry_lifecycle` at the concrete always-failing job. -/
theorem job_retry_lifecycle_witness :
    jAlwaysFail.max_retries = 2 ∧ jAlwaysFail.delay = 0
    ∧ status_trace (apply_ops sched_init (retry_schedule jAlwaysFail)) "j1"
        = [.pending, .running, .retrying, .running, .retrying, .running, .failed]
    ∧ exec_count (apply_ops sched_init (retry_schedule jAlwaysFail)) "j1" = 3 :=
  have h := job_retry_lifecycle jAlwaysFail "boom" rfl rfl (fun _ => rfl)
  ⟨rfl, rfl, h.1, h.2.1⟩

/-- C4 as stated is false on the code: the claimed status sequence re-enters
`pending` after each `retrying`, but `_queue_delayed_job` never resets the
status, so the observed sequence has no `pending` between retries. -/
theorem job_retry_status_sequence_cex :
    status_trace (apply_ops sched_init (retry_schedule jAlwaysFail)) "j1"
      ≠ [.pending, .running, .retrying, .pending, .running, .retrying, .pending,
         .running, .failed] := by
  have h := job_retry_lifecycle jAlwaysFail "boom" rfl rfl (fun _ => rfl)
  rw [show jAlwaysFail.id = "j1" from rfl] at h
  rw [h.1]
  decide


/-! ## C8, C10: cancellation and the claim-to-run race -/

/-- Unfolding lemma for `dictGet` on an empty dict. -/
@[simp] lemma dictGet_nil {β : Type} (k : String) :
    dictGet ([] : List (String × β)) k = none := rfl

/-- Unfolding lemma for `dictGet` on a nonempty dict. -/
lemma dictGet_cons {β : Type} (p : String × β) (rest : List (String × β))
    (k : String) :
    dictGet (p :: rest) k = if p.1 = k then some p.2 else dictGet rest k := rfl

/-- A key that occurs nowhere in a dict is not found. -/
lemma dictGet_eq_none_of_not_mem {β : Type} (d : List (String × β)) (k : String)
    (h : k ∉ d.map Prod.fst) : dictGet d k = none := by
  induction d with
  | nil => rfl
  | cons p rest ih =>
    rw [List.map_cons, List.mem_cons] at h
    push_neg at h
    rw [dictGet_cons, if_neg (fun hpk => h.1 hpk.symm)]
    exact ih h.2

/-- With the keys pairwise distinct (a Python dict guarantee), deleting a key
makes it unfindable. -/
lemma dictGet_dictRemove_self {β : Type} (d : List (String × β)) (k : String)
    (h : (d.map Prod.fst).Nodup) : dictGet (dictRemove d k) k = none := by
  induction d with
  | nil => rfl
  | cons p rest ih =>
    rw [List.map_cons, List.nodup_cons] at h
    by_cases hpk : p.1 = k
    · simp only [dictRemove, hpk, if_true]
      exact dictGet_eq_none_of_not_mem rest k (hpk ▸ h.1)
    · simp only [dictRemove, hpk, if_false]
      rw [dictGet_cons, if_neg hpk]
      exact ih h.2

/-- A concrete pending job for the cancellation theorems. -/
def jPending : SJob := { priority := 1, id := "p", run := fun _ => .ok () }

/-- A scheduler state holding one pending registered and enqueued job. -/
def stPend : SchedState := { jobs := [("p", jPending)], job_queue := [jPending] }

/-- C8 is violated by the code: the worker's lock-protected membership check
(`if job.id not in self.jobs`, lock released at job_scheduler.py line 211)
runs before `_execute_job` assigns `job.status = RUNNING` (line 224, outside
the lock).  In that window the map entry still reads `pending`, so
`cancel_job` succeeds — it returns True and deletes the job from `self.jobs`
— and yet the worker, already past its check, invokes the work function of
the successfully cancelled job (which then even lands in `completed_jobs`).
So "a successfully cancelled job is removed before any worker can claim it
and its work function never executes" fails on this interleaving, while the
membership check shows it is exactly what the code intends. -/
theorem cancel_job_race_executes_cancelled_job :
    (cancel_job (apply_op stPend SchedOp.claim) "p").2 = true
    ∧ dictGet (apply_ops stPend [SchedOp.claim, SchedOp.cancel "p"]).jobs "p"
        = none
    ∧ exec_count (apply_ops stPend
        [SchedOp.claim, SchedOp.cancel "p", SchedOp.run 0]) "p" = 1 :=
  ⟨rfl, rfl, rfl⟩

/-! ## C9: priority dequeue -/

/-- `PriorityQueue.get` on a nonempty queue always yields a job. -/
lemma popMin_ne_none (j : SJob) (rest : List SJob) : popMin (j :: rest) ≠ none := by
  unfold popMin
  cases popMin rest with
  | none => simp
  | some p =>
    obtain ⟨m, r⟩ := p
    dsimp only
    by_cases h : jobLt m j <;> simp [h]

/-- The job returned by `popMin` has minimal priority among all enqueued
jobs. -/
lemma popMin_min : ∀ (q : List SJob) (j : SJob) (r : List SJob),
    popMin q = some (j, r) → ∀ x ∈ q, j.priority ≤ x.priority := by
  intro q
  induction q with
  | nil => intro j r h; exact absurd h (by simp [popMin])
  | cons a l ih =>
    intro j r h x hx
    unfold popMin at h
    cases hl : popMin l with
    | none =>
      rw [hl] at h
      injection h with h1
      have hl0 : l = [] := by
        cases l with
        | nil => rfl
        | cons b m => exact absurd hl (popMin_ne_none b m)
      subst hl0
      cases h1
      rcases List.mem_singleton.mp hx with rfl
      exact le_refl _
    | some p =>
      obtain ⟨m, r'⟩ := p
      rw [hl] at h
      dsimp only at h
      by_cases hmj : jobLt m a
      · rw [if_pos hmj] at h
        injection h with h1
        have hjm : m = j := congrArg Prod.fst h1
        subst hjm
        have hma : m.priority < a.priority := by
          unfold jobLt at hmj
          exact of_decide_eq_true hmj
        rcases List.mem_cons.mp hx with rfl | hxl
        · exact le_of_lt hma
        · exact ih m r' hl x hxl
      · rw [if_neg hmj] at h
        injection h with h1
        have hja : a = j := congrArg Prod.fst h1
        subst hja
        have ham : a.priority ≤ m.priority := by
          unfold jobLt at hmj
          exact le_of_not_lt (fun hc => hmj (decide_eq_true hc))
        rcases List.mem_cons.mp hx with rfl | hxl
        · exact le_refl _
        · exact le_trans ham (ih m r' hl x hxl)

/-- C9: a worker's dequeue yields a job of minimal numeric priority among all
currently enqueued jobs (lower number first), and the `Job` dataclass
comparison consults the priority field alone (every other field is
`compare=False`), so equal-priority jobs are mutually incomparable and their
dequeue order is left to the heap. -/
theorem worker_dequeue_min_priority (q : List SJob) (j : SJob) (r : List SJob)
    (h : popMin q = some (j, r)) :
    (∀ x ∈ q, j.priority ≤ x.priority)
    ∧ (∀ a b : SJob, jobLt a b = true ↔ a.priority < b.priority) :=
  ⟨popMin_min q j r h, fun a b => by unfold jobLt; exact decide_eq_true_iff⟩

/-- A priority-5 job with distinct non-compared fields. -/
def jP5 : SJob := { priority := 5, id := "a", run := fun _ => .ok () }

/-- A priority-1 job. -/
def jP1 : SJob := { priority := 1, id := "b", run := fun _ => .ok () }

/-- A priority-3 job. -/
def jP3 : SJob := { priority := 3, id := "c", run := fun _ => .ok () }

/-- Witness for C9 on a concrete queue: the priority-1 job is dequeued first
and the comparison is exactly priority order. -/
theorem worker_dequeue_min_priority_witness :
    jP1.priority ≤ jP5.priority
    ∧ (jobLt jP1 jP5 = true ↔ jP1.priority < jP5.priority) :=
  have h := worker_dequeue_min_priority [jP5, jP1, jP3] jP1 [jP5, jP3] rfl
  ⟨h.1 jP5 (List.mem_cons_self jP5 [jP1, jP3]), h.2 jP1 jP5⟩

/-! ## C10: cancelled jobs are unknown, finished jobs are retained -/

/-- Filtering a dict in which the key is absent keeps it absent. -/
lemma dictGet_filter_none {β : Type} (d : List (String × β)) (k : String)
    (p : String × β → Bool) (h : dictGet d k = none) :
    dictGet (d.filter p) k = none := by
  induction d with
  | nil => rfl
  | cons q rest ih =>
    rw [dictGet_cons] at h
    by_cases hq : q.1 = k
    · rw [if_pos hq] at h
      exact Option.noConfusion h
    · rw [if_neg hq] at h
      rw [List.filter_cons]
      by_cases hp : p q
      · rw [if_pos hp, dictGet_cons, if_neg hq]
        exact ih h
      · rw [if_neg hp]
        exact ih h

/-- With pairwise-distinct keys, filtering a dict keeps an entry iff the
predicate holds of it. -/
lemma dictGet_filter {β : Type} (d : List (String × β)) (k : String) (v : β)
    (p : String × β → Bool) (hk : (d.map Prod.fst).Nodup)
    (h : dictGet d k = some v) :
    dictGet (d.filter p) k = if p (k, v) = true then some v else none := by
  induction d with
  | nil => exact Option.noConfusion h
  | cons q rest ih =>
    obtain ⟨q1, q2⟩ := q
    rw [List.map_cons, List.nodup_cons] at hk
    rw [dictGet_cons] at h
    by_cases hq : q1 = k
    · rw [if_pos hq] at h
      injection h with hv
      subst hq
      subst hv
      rw [List.filter_cons]
      by_cases hp : p (q1, q2)
      · rw [if_pos hp, if_pos hp, dictGet_cons, if_pos rfl]
      · rw [if_neg hp, if_neg hp]
        exact dictGet_filter_none rest q1 p
          (dictGet_eq_none_of_not_mem rest q1 hk.1)
    · rw [if_neg hq] at h
      rw [List.filter_cons]
      by_cases hp : p (q1, q2)
      · rw [if_pos hp, dictGet_cons, if_neg hq]
        exact ih hk.2 h
      · rw [if_neg hp]
        exact ih hk.2 h

/-- C10: a successfully cancelled job (one that was still pending and had
never finished) is deleted outright, so `get_job_status` afterwards reports
not-found; whereas a job in the completed/failed map stays queryable, and the
hourly cleanup removes it exactly when it was created more than one hour
(3600 time units) before the cleanup time. -/
theorem cancelled_job_status_not_found (st : SchedState) (job_id : String)
    (now : ℚ)
    (hkeys : (st.jobs.map Prod.fst).Nodup)
    (hckeys : (st.completed_jobs.map Prod.fst).Nodup) :
    ((cancel_job st job_id).2 = true →
      dictGet st.completed_jobs job_id = none →
      get_job_status (cancel_job st job_id).1 job_id = none)
    ∧ (∀ j, dictGet st.jobs job_id = none →
        dictGet st.completed_jobs job_id = some j →
        get_job_status st job_id = some (snapshot_of j)
        ∧ dictGet (cleanup_old_jobs st now).completed_jobs job_id
            = (if j.created_at < now - 3600 then none else some j)) := by
  constructor
  · intro hc hnone
    unfold cancel_job at hc ⊢
    cases hg : dictGet st.jobs job_id with
    | none => rw [hg] at hc; simp at hc
    | some j =>
      dsimp only at hc ⊢
      by_cases hp : j.status = JobStatus.pending
      · rw [if_pos hp]
        unfold get_job_status
        rw [dictGet_dictRemove_self st.jobs job_id hkeys]
        dsimp only
        rw [hnone]
        rfl
      · rw [hg] at hc
        dsimp only at hc
        rw [if_neg hp] at hc
        simp at hc
  · intro j hjn hjc
    constructor
    · unfold get_job_status
      rw [hjn, hjc]
      rfl
    · unfold cleanup_old_jobs
      dsimp only
      rw [dictGet_filter st.completed_jobs job_id j _ hckeys hjc]
      by_cases hold : j.created_at < now - 3600
      · rw [if_pos hold, if_neg (by simp [hold])]
      · rw [if_neg hold, if_pos (by simp [hold])]

/-- A completed job retained in the completed map, created at time 0. -/
def jDone : SJob :=
  { priority := 2, id := "d", run := fun _ => .ok (),
    status := JobStatus.completed }

/-- A state with one pending job and one retained completed job. -/
def stMix : SchedState :=
  { jobs := [("p", jPending)], completed_jobs := [("d", jDone)] }

/-- Witness for C10: cancelling the pending job makes its status not-found,
while the completed job remains queryable and survives a cleanup run within
the retention hour. -/
theorem cancelled_job_status_not_found_witness :
    get_job_status (cancel_job stMix "p").1 "p" = none
    ∧ get_job_status stMix "d" = some (snapshot_of jDone)
    ∧ dictGet (cleanup_old_jobs stMix 100).completed_jobs "d" = some jDone :=
  have h := cancelled_job_status_not_found stMix "p" 100 (by simp [stMix])
    (by simp [stMix])
  have h2 := cancelled_job_status_not_found stMix "d" 100 (by simp [stMix])
    (by simp [stMix])
  have hd := h2.2 jDone rfl rfl
  ⟨h.1 (by rfl) rfl, hd.1,
   by rw [hd.2]; rw [if_neg (by norm_num [jDone])]⟩

/-! ## Vector arithmetic and `search_similar` -/

/-- Dot product (`np.dot`; only ever evaluated on equal-length vectors). -/
def dotl : List ℚ → List ℚ → ℚ
  | a :: as, b :: bs => a * b + dotl as bs
  | _, _ => 0

/-- Sum of squares: the square of `np.linalg.norm`. -/
def ssql : List ℚ → ℚ
  | [] => 0
  | a :: as => a * a + ssql as

/-- Squared L2 distance between two vectors: the faiss `IndexFlatL2` score. -/
def sqdist : List ℚ → List ℚ → ℚ
  | a :: as, b :: bs => (a - b) * (a - b) + sqdist as bs
  | _, _ => 0

/-- Embedding of `AcceleratedSearch._cosine_similarity`: `np.dot` raises when
the two vectors' lengths differ; a zero norm yields similarity 0. -/
noncomputable def cosine_similarity (a b : List ℚ) : Except String ℝ :=
  if a.length ≠ b.length then .error "shapes not aligned"
  else if Real.sqrt ((ssql a : ℚ) : ℝ) = 0 ∨ Real.sqrt ((ssql b : ℚ) : ℝ) = 0 then
    .ok 0
  else
    .ok (((dotl a b : ℚ) : ℝ)
      / (Real.sqrt ((ssql a : ℚ) : ℝ) * Real.sqrt ((ssql b : ℚ) : ℝ)))

/-- The sort key relation of `results.sort(key=lambda x: x["distance"])`:
ascending reported distance. -/
def distle (r₁ r₂ : SearchResult) : Prop := r₁.distance ≤ r₂.distance

noncomputable instance : DecidableRel distle := fun r₁ r₂ => Real.decidableLE r₁.distance r₂.distance

instance : IsTotal SearchResult distle := ⟨fun a b => le_total a.distance b.distance⟩

instance : IsTrans SearchResult distle := ⟨fun _ _ _ h₁ h₂ => le_trans h₁ h₂⟩

/-- The `_fallback_search` scan over the recent window: every artifact with a
truthy embedding that passes the filters contributes cosine similarity and
distance `1 - similarity`; a raised numpy shape error propagates. -/
noncomputable def gather_fallback (q : List ℚ) (filters : Option Filters) :
    List Artifact → Except String (List SearchResult)
  | [] => .ok []
  | a :: rest =>
    match a.embedding with
    | some e =>
      if e ≠ [] ∧ passes_filters a filters = true then
        match cosine_similarity q e with
        | .error m => .error m
        | .ok sim =>
          match gather_fallback q filters rest with
          | .error m => .error m
          | .ok rs => .ok (⟨a, sim, 1 - sim⟩ :: rs)
      else gather_fallback q filters rest
    | none => gather_fallback q filters rest

/-- Embedding of `AcceleratedSearch._fallback_search`: brute-force cosine scan
over the bounded recent window (`get_artifacts_with_extended(limit=100)`),
sorted by ascending distance and truncated to `k`. -/
noncomputable def fallback_search (db : BrainDB) (q : List ℚ) (k : ℕ)
    (filters : Option Filters) : Except String (List SearchResult) :=
  match gather_fallback q filters db.get_artifacts_with_extended with
  | .error m => .error m
  | .ok rs => .ok ((List.insertionSort distle rs).take k)

/-- Score-position pairs of every index row against the query, in row order. -/
def score_pairs (q : List ℚ) : ℕ → List (List ℚ) → List (ℚ × ℕ)
  | _, [] => []
  | i, v :: rest => (sqdist q v, i) :: score_pairs q (i + 1) rest

/-- The faiss result ordering: ascending squared-distance score. -/
def scorele (p₁ p₂ : ℚ × ℕ) : Prop := p₁.1 ≤ p₂.1

instance : DecidableRel scorele := fun a b => inferInstanceAs (Decidable (a.1 ≤ b.1))

instance : IsTotal (ℚ × ℕ) scorele := ⟨fun a b => le_total a.1 b.1⟩

instance : IsTrans (ℚ × ℕ) scorele := ⟨fun _ _ _ h₁ h₂ => le_trans h₁ h₂⟩

/-- Model of `faiss.IndexFlatL2.search` on a well-dimensioned query: the `k`
nearest rows by squared L2 distance, as (score, row position) pairs in
ascending score order. -/
def faiss_topk (index : List (List ℚ)) (q : List ℚ) (k : ℕ) : List (ℚ × ℕ) :=
  (List.insertionSort scorele (score_pairs q 0 index)).take k

/-- The body of the result loop of `search_similar`: a returned faiss
position inside the mapping is translated to an artifact id, hydrated from
the database and post-filtered; the reported distance is the square root of
the squared-L2 score. -/
noncomputable def hydrate (db : BrainDB) (s : SearchState)
    (filters : Option Filters) (p : ℚ × ℕ) : Option SearchResult :=
  if p.2 < s.id_map.length then
    match db.get_artifact_extended (s.id_map.getD p.2 "") with
    | some artifact =>
      if passes_filters artifact filters = true then
        some ⟨artifact, ((p.1 : ℚ) : ℝ), Real.sqrt ((p.1 : ℚ) : ℝ)⟩
      else none
    | none => none
  else none

/-- Embedding of `AcceleratedSearch.search_similar`.  An empty index goes
straight to the fallback; a query of the wrong dimension makes `index.search`
raise, and the `except` handler also falls back; otherwise the top
`min(k, ntotal)` positions are hydrated, post-filtered, sorted by distance
(`sqrt(score)`) and truncated to `k`. -/
noncomputable def search_similar (db : BrainDB) (s : SearchState) (q : List ℚ)
    (k : ℕ) (filters : Option Filters) : Except String (List SearchResult) :=
  if s.index.length = 0 then fallback_search db q k filters
  else if q.length ≠ s.embedding_dim then fallback_search db q k filters
  else
    let results := (faiss_topk s.index q (min k s.index.length)).filterMap
      (hydrate db s filters)
    .ok ((List.insertionSort distle results).take k)

/-! ## C1: wrong-dimension queries -/

/-- A database whose every response is empty. -/
def dbEmpty : BrainDB :=
  ⟨.ok [], fun _ => 0, fun _ => none, [], fun _ _ _ => []⟩

/-- A one-vector index generation of dimension 2. -/
def sDim2 : SearchState := ⟨2, [[1, 0]], ["a"], some 0⟩

/-- C1 is false on the code: a query of dimension 3 against a nonempty index
of dimension 2 does not fail with a validation error; the faiss exception is
caught and the call silently degrades to the brute-force fallback, here
returning an ordinary (empty) result list. -/
theorem search_similar_wrong_dim_no_error :
    search_similar dbEmpty sDim2 [1, 0, 0] 10 none = .ok [] := rfl

/-- C1 (amended): a query embedding whose length differs from the configured
dimension is not rejected: with a nonempty index, `index.search` raises, the
`except` handler swallows the error, and the call returns whatever the
brute-force fallback over the recent window produces (ordinary results, or a
numpy shape error if a window embedding mismatches the query). -/
theorem search_similar_wrong_dim_falls_back (db : BrainDB) (s : SearchState)
    (q : List ℚ) (k : ℕ) (f : Option Filters)
    (hq : q.length ≠ s.embedding_dim) (hidx : s.index.length ≠ 0) :
    search_similar db s q k f = fallback_search db q k f := by
  unfold search_similar
  rw [if_neg hidx, if_pos hq]

/-- Witness for the amended C1 at the concrete wrong-dimension query. -/
theorem search_similar_wrong_dim_falls_back_witness :
    ([1, 0, 0] : List ℚ).length ≠ sDim2.embedding_dim
    ∧ sDim2.index.length ≠ 0
    ∧ search_similar dbEmpty sDim2 [1, 0, 0] 10 none
        = fallback_search dbEmpty [1, 0, 0] 10 none :=
  ⟨by decide, by decide,
   search_similar_wrong_dim_falls_back dbEmpty sDim2 [1, 0, 0] 10 none
     (by decide) (by decide)⟩

/-! ## C2: results sorted by ascending distance, at most k entries -/

/-- Sorting by distance and truncating yields a distance-sorted list. -/
lemma sorted_take_sort (l : List SearchResult) (k : ℕ) :
    List.Sorted distle ((List.insertionSort distle l).take k) :=
  List.Pairwise.sublist (List.take_sublist k _)
    (List.sorted_insertionSort distle l)

/-- C2: whenever `search_similar` returns a result list (on a query of the
configured dimension), and likewise whenever `_fallback_search` returns one,
the list is sorted by non-decreasing distance and holds at most `k` entries.
Both code paths end in `results.sort(key=distance)[:k]`. -/
theorem search_similar_sorted_bounded (db : BrainDB) (s : SearchState)
    (q : List ℚ) (k : ℕ) (f : Option Filters)
    (hdim : q.length = s.embedding_dim) :
    (∀ l, search_similar db s q k f = .ok l →
        List.Sorted distle l ∧ l.length ≤ k)
    ∧ (∀ l, fallback_search db q k f = .ok l →
        List.Sorted distle l ∧ l.length ≤ k) := by
  have hfb : ∀ l, fallback_search db q k f = .ok l →
      List.Sorted distle l ∧ l.length ≤ k := by
    intro l hl
    unfold fallback_search at hl
    cases hg : gather_fallback q f db.get_artifacts_with_extended with
    | error m => rw [hg] at hl; exact Except.noConfusion hl
    | ok rs =>
      rw [hg] at hl
      injection hl with hl'
      rw [← hl']
      exact ⟨sorted_take_sort rs k, List.length_take_le k _⟩
  refine ⟨?_, hfb⟩
  intro l hl
  unfold search_similar at hl
  by_cases h0 : s.index.length = 0
  · rw [if_pos h0] at hl
    exact hfb l hl
  · rw [if_neg h0, if_neg (not_not_intro hdim)] at hl
    injection hl with hl'
    rw [← hl']
    exact ⟨sorted_take_sort _ k, List.length_take_le k _⟩

/-- A valid query of the configured dimension 2. -/
def qDim2 : List ℚ := [1, 0]

/-- Witness for C2: a valid-dimension query on the empty generation returns
the (sorted, within-bound) empty result list via the fallback. -/
theorem search_similar_sorted_bounded_witness :
    qDim2.length = sEmpty2.embedding_dim
    ∧ List.Sorted distle ([] : List SearchResult)
    ∧ ([] : List SearchResult).length ≤ 3 :=
  have h := search_similar_sorted_bounded dbEmpty sEmpty2 qDim2 3 none rfl
  have hok : search_similar dbEmpty sEmpty2 qDim2 3 none = .ok [] := rfl
  ⟨rfl, (h.1 [] hok).1, (h.1 [] hok).2⟩

/-! ## Distance bounds -/

/-- A sum of squares is nonnegative. -/
lemma ssql_nonneg : ∀ a : List ℚ, 0 ≤ ssql a
  | [] => le_refl 0
  | x :: as => add_nonneg (mul_self_nonneg x) (ssql_nonneg as)

/-- Cauchy-Schwarz for list dot products, in exact rational arithmetic. -/
lemma dotl_sq_le : ∀ a b : List ℚ, dotl a b ^ 2 ≤ ssql a * ssql b := by
  intro a
  induction a with
  | nil =>
    intro b
    simp [dotl, ssql]
  | cons x as ih =>
    intro b
    cases b with
    | nil =>
      have h1 : dotl (x :: as) [] = 0 := rfl
      have h2 : ssql ([] : List ℚ) = 0 := rfl
      rw [h1, h2, mul_zero]
      simp
    | cons y bs =>
      have hA := ssql_nonneg as
      have hB := ssql_nonneg bs
      have hS := ih bs
      simp only [dotl, ssql]
      rcases eq_or_lt_of_le hB with hB0 | hBpos
      · have hS2 : dotl as bs ^ 2 ≤ 0 := by
          rw [← hB0] at hS
          simpa using hS
        have hS0 : dotl as bs = 0 := by nlinarith [sq_nonneg (dotl as bs)]
        rw [hS0, ← hB0]
        nlinarith [sq_nonneg y, mul_nonneg hA (mul_self_nonneg y)]
      · nlinarith [sq_nonneg (x * ssql bs - y * dotl as bs),
          mul_nonneg (add_nonneg (mul_self_nonneg y) hB)
            (sub_nonneg.mpr hS), hBpos]

/-- A cosine similarity computed by the fallback never exceeds 1. -/
lemma cosine_le_one (a b : List ℚ) (c : ℝ)
    (h : cosine_similarity a b = .ok c) : c ≤ 1 := by
  unfold cosine_similarity at h
  by_cases hlen : a.length ≠ b.length
  · rw [if_pos hlen] at h
    exact Except.noConfusion h
  rw [if_neg hlen] at h
  by_cases hz : Real.sqrt ((ssql a : ℚ) : ℝ) = 0 ∨ Real.sqrt ((ssql b : ℚ) : ℝ) = 0
  · rw [if_pos hz] at h
    injection h with h'
    rw [← h']
    exact zero_le_one
  · rw [if_neg hz] at h
    injection h with h'
    push_neg at hz
    have hna : 0 < Real.sqrt ((ssql a : ℚ) : ℝ) :=
      lt_of_le_of_ne (Real.sqrt_nonneg _) (Ne.symm hz.1)
    have hnb : 0 < Real.sqrt ((ssql b : ℚ) : ℝ) :=
      lt_of_le_of_ne (Real.sqrt_nonneg _) (Ne.symm hz.2)
    rw [← h']
    rw [div_le_one (mul_pos hna hnb)]
    have hcs : ((dotl a b : ℚ) : ℝ) ^ 2 ≤ ((ssql a : ℚ) : ℝ) * ((ssql b : ℚ) : ℝ) := by
      exact_mod_cast dotl_sq_le a b
    calc ((dotl a b : ℚ) : ℝ) ≤ |((dotl a b : ℚ) : ℝ)| := le_abs_self _
      _ = Real.sqrt (((dotl a b : ℚ) : ℝ) ^ 2) := (Real.sqrt_sq_eq_abs _).symm
      _ ≤ Real.sqrt (((ssql a : ℚ) : ℝ) * ((ssql b : ℚ) : ℝ)) :=
          Real.sqrt_le_sqrt hcs
      _ = Real.sqrt ((ssql a : ℚ) : ℝ) * Real.sqrt ((ssql b : ℚ) : ℝ) :=
          Real.sqrt_mul (by exact_mod_cast ssql_nonneg a) _

/-- Every fallback result's reported distance (`1 - similarity`) is
nonnegative. -/
lemma gather_fallback_dist_nonneg (q : List ℚ) (f : Option Filters) :
    ∀ (A : List Artifact) (rs : List SearchResult),
      gather_fallback q f A = .ok rs → ∀ r ∈ rs, 0 ≤ r.distance := by
  intro A
  induction A with
  | nil =>
    intro rs h r hr
    unfold gather_fallback at h
    injection h with h'
    rw [← h'] at hr
    exact absurd hr (List.not_mem_nil r)
  | cons a rest ih =>
    intro rs h r hr
    unfold gather_fallback at h
    cases he : a.embedding with
    | none =>
      rw [he] at h
      exact ih rs h r hr
    | some e =>
      rw [he] at h
      dsimp only at h
      by_cases hcond : e ≠ [] ∧ passes_filters a f = true
      · rw [if_pos hcond] at h
        cases hc : cosine_similarity q e with
        | error m => rw [hc] at h; exact Except.noConfusion h
        | ok sim =>
          rw [hc] at h
          cases hg : gather_fallback q f rest with
          | error m => rw [hg] at h; exact Except.noConfusion h
          | ok rs' =>
            rw [hg] at h
            injection h with h'
            rw [← h'] at hr
            rcases List.mem_cons.mp hr with rfl | hr'
            · have := cosine_le_one q e sim hc
              simp only
              linarith
            · exact ih rs' hg r hr'
      · rw [if_neg hcond] at h
        exact ih rs h r hr

/-- Inversion of `hydrate`: a produced result is the database artifact of the
mapped id, with `sqrt(score)` as distance. -/
lemma hydrate_some (db : BrainDB) (s : SearchState) (f : Option Filters)
    (p : ℚ × ℕ) (r : SearchResult) (h : hydrate db s f p = some r) :
    p.2 < s.id_map.length
    ∧ db.get_artifact_extended (s.id_map.getD p.2 "") = some r.artifact
    ∧ r.distance = Real.sqrt ((p.1 : ℚ) : ℝ) := by
  unfold hydrate at h
  by_cases hlt : p.2 < s.id_map.length
  · rw [if_pos hlt] at h
    cases hg : db.get_artifact_extended (s.id_map.getD p.2 "") with
    | none => rw [hg] at h; exact Option.noConfusion h
    | some artifact =>
      rw [hg] at h
      dsimp only at h
      by_cases hpf : passes_filters artifact f = true
      · rw [if_pos hpf] at h
        injection h with h'
        rw [← h']
        dsimp only
        exact ⟨hlt, rfl, rfl⟩
      · rw [if_neg hpf] at h
        exact Option.noConfusion h
  · rw [if_neg hlt] at h
    exact Option.noConfusion h

/-- Every result ever returned by `search_similar` carries a nonnegative
distance: `sqrt(score)` on the index path, `1 - cosine` on the fallback. -/
lemma search_similar_dist_nonneg (db : BrainDB) (s : SearchState) (q : List ℚ)
    (k : ℕ) (f : Option Filters) :
    ∀ l, search_similar db s q k f = .ok l → ∀ r ∈ l, 0 ≤ r.distance := by
  have hfb : ∀ l, fallback_search db q k f = .ok l → ∀ r ∈ l, 0 ≤ r.distance := by
    intro l hl r hr
    unfold fallback_search at hl
    cases hg : gather_fallback q f db.get_artifacts_with_extended with
    | error m => rw [hg] at hl; exact Except.noConfusion hl
    | ok rs =>
      rw [hg] at hl
      injection hl with hl'
      rw [← hl'] at hr
      have hr' : r ∈ rs :=
        (List.perm_insertionSort distle rs).subset (List.take_subset k _ hr)
      exact gather_fallback_dist_nonneg q f _ rs hg r hr'
  intro l hl r hr
  unfold search_similar at hl
  by_cases h0 : s.index.length = 0
  · rw [if_pos h0] at hl
    exact hfb l hl r hr
  · rw [if_neg h0] at hl
    by_cases hq : q.length ≠ s.embedding_dim
    · rw [if_pos hq] at hl
      exact hfb l hl r hr
    · rw [if_neg hq] at hl
      injection hl with hl'
      rw [← hl'] at hr
      have hr' : r ∈ (faiss_topk s.index q (min k s.index.length)).filterMap
          (hydrate db s f) :=
        (List.perm_insertionSort distle _).subset (List.take_subset k _ hr)
      obtain ⟨p, _, hp⟩ := List.mem_filterMap.mp hr'
      rw [(hydrate_some db s f p r hp).2.2]
      exact Real.sqrt_nonneg _

/-! ## Distinctness of result ids -/

/-- Positions in a score-pair list start at the given counter. -/
lemma score_pairs_le (q : List ℚ) :
    ∀ (L : List (List ℚ)) (i : ℕ) (p : ℚ × ℕ), p ∈ score_pairs q i L → i ≤ p.2 := by
  intro L
  induction L with
  | nil => intro i p hp; exact absurd hp (List.not_mem_nil p)
  | cons v rest ih =>
    intro i p hp
    rcases List.mem_cons.mp hp with rfl | hp'
    · exact le_refl i
    · exact le_trans (Nat.le_succ i) (ih (i + 1) p hp')

/-- The positions of a score-pair list are pairwise distinct. -/
lemma score_pairs_snd_pairwise (q : List ℚ) :
    ∀ (L : List (List ℚ)) (i : ℕ),
      (score_pairs q i L).Pairwise (fun p₁ p₂ => p₁.2 ≠ p₂.2) := by
  intro L
  induction L with
  | nil => intro i; exact List.Pairwise.nil
  | cons v rest ih =>
    intro i
    rw [score_pairs, List.pairwise_cons]
    refine ⟨fun p hp => ?_, ih (i + 1)⟩
    have := score_pairs_le q rest (i + 1) p hp
    dsimp only
    omega

/-- The positions returned by the faiss model are pairwise distinct. -/
lemma faiss_topk_snd_pairwise (index : List (List ℚ)) (q : List ℚ) (k : ℕ) :
    (faiss_topk index q k).Pairwise (fun p₁ p₂ => p₁.2 ≠ p₂.2) := by
  unfold faiss_topk
  refine List.Pairwise.sublist (List.take_sublist k _) ?_
  exact ((List.perm_insertionSort scorele _).pairwise_iff
    (fun h => h.symm)).mpr (score_pairs_snd_pairwise q index 0)

/-- Mapping a filterMap keeps distinctness when producers of colliding images
are excluded pairwise. -/
lemma nodup_map_filterMap {α β γ : Type} (f : α → Option β) (h : β → γ)
    (l : List α)
    (hp : l.Pairwise (fun x y => ∀ b b', f x = some b → f y = some b' →
      h b ≠ h b')) :
    ((l.filterMap f).map h).Nodup := by
  induction l with
  | nil => exact List.Pairwise.nil
  | cons x xs ih =>
    rw [List.pairwise_cons] at hp
    rw [List.filterMap_cons]
    cases hf : f x with
    | none => exact ih hp.2
    | some b =>
      rw [List.map_cons, List.nodup_cons]
      refine ⟨fun hmem => ?_, ih hp.2⟩
      obtain ⟨b', hb', hbb'⟩ := List.mem_map.mp hmem
      obtain ⟨x', hx', hfx'⟩ := List.mem_filterMap.mp hb'
      exact hp.1 x' hx' b b' hf hfx' hbb'.symm

/-- Distinct valid positions of a duplicate-free mapping give distinct ids. -/
lemma nodup_getD_ne (l : List String) (hl : l.Nodup) (i j : ℕ)
    (hi : i < l.length) (hj : j < l.length) (hij : i ≠ j) :
    l.getD i "" ≠ l.getD j "" := by
  rw [List.getD_eq_getElem l "" hi, List.getD_eq_getElem l "" hj]
  intro he
  exact hij (hl.getElem_inj_iff.mp he)

/-- The artifacts collected by the fallback scan are a subsequence of the
window, so their ids form a sublist of the window's ids. -/
lemma gather_fallback_ids_sublist (q : List ℚ) (f : Option Filters) :
    ∀ (A : List Artifact) (rs : List SearchResult),
      gather_fallback q f A = .ok rs →
      List.Sublist (rs.map (·.artifact.id)) (A.map (·.id)) := by
  intro A
  induction A with
  | nil =>
    intro rs h
    unfold gather_fallback at h
    injection h with h'
    rw [← h']
    exact List.nil_sublist _
  | cons a rest ih =>
    intro rs h
    unfold gather_fallback at h
    cases he : a.embedding with
    | none =>
      rw [he] at h
      exact (ih rs h).trans (List.sublist_cons_self _ _)
    | some e =>
      rw [he] at h
      dsimp only at h
      by_cases hcond : e ≠ [] ∧ passes_filters a f = true
      · rw [if_pos hcond] at h
        cases hc : cosine_similarity q e with
        | error m => rw [hc] at h; exact Except.noConfusion h
        | ok sim =>
          rw [hc] at h
          cases hg : gather_fallback q f rest with
          | error m => rw [hg] at h; exact Except.noConfusion h
          | ok rs' =>
            rw [hg] at h
            injection h with h'
            rw [← h']
            exact List.Sublist.cons₂ _ (ih rs' hg)
      · rw [if_neg hcond] at h
        exact (ih rs h).trans (List.sublist_cons_self _ _)

/-- Under a duplicate-free position mapping, a well-formed database (lookups
return the artifact of the looked-up id) and a duplicate-free recent window,
the artifact ids of any `search_similar` result list are pairwise distinct. -/
lemma search_similar_ids_nodup (db : BrainDB) (s : SearchState) (q : List ℚ)
    (k : ℕ) (f : Option Filters)
    (hid : s.id_map.Nodup)
    (hwf : ∀ i a, db.get_artifact_extended i = some a → a.id = i)
    (hwin : (db.get_artifacts_with_extended.map (·.id)).Nodup) :
    ∀ l, search_similar db s q k f = .ok l → (l.map (·.artifact.id)).Nodup := by
  have hsort : ∀ (rs : List SearchResult),
      (rs.map (·.artifact.id)).Nodup →
      (((List.insertionSort distle rs).take k).map (·.artifact.id)).Nodup := by
    intro rs hrs
    have hperm : List.Perm ((List.insertionSort distle rs).map (·.artifact.id))
        (rs.map (·.artifact.id)) :=
      (List.perm_insertionSort distle rs).map _
    have hsorted : ((List.insertionSort distle rs).map (·.artifact.id)).Nodup :=
      hperm.nodup_iff.mpr hrs
    exact List.Nodup.sublist
      (List.Sublist.map _ (List.take_sublist k _)) hsorted
  have hfb : ∀ l, fallback_search db q k f = .ok l →
      (l.map (·.artifact.id)).Nodup := by
    intro l hl
    unfold fallback_search at hl
    cases hg : gather_fallback q f db.get_artifacts_with_extended with
    | error m => rw [hg] at hl; exact Except.noConfusion hl
    | ok rs =>
      rw [hg] at hl
      injection hl with hl'
      rw [← hl']
      exact hsort rs
        (List.Nodup.sublist (gather_fallback_ids_sublist q f _ rs hg) hwin)
  intro l hl
  unfold search_similar at hl
  by_cases h0 : s.index.length = 0
  · rw [if_pos h0] at hl
    exact hfb l hl
  · rw [if_neg h0] at hl
    by_cases hq : q.length ≠ s.embedding_dim
    · rw [if_pos hq] at hl
      exact hfb l hl
    · rw [if_neg hq] at hl
      injection hl with hl'
      rw [← hl']
      refine hsort _ (nodup_map_filterMap (hydrate db s f) (·.artifact.id) _ ?_)
      refine List.Pairwise.imp ?_
        (faiss_topk_snd_pairwise s.index q (min k s.index.length))
      intro p₁ p₂ hne b b' hb hb'
      obtain ⟨hlt₁, hget₁, _⟩ := hydrate_some db s f p₁ b hb
      obtain ⟨hlt₂, hget₂, _⟩ := hydrate_some db s f p₂ b' hb'
      have hb1 : b.artifact.id = s.id_map.getD p₁.2 "" := hwf _ _ hget₁
      have hb2 : b'.artifact.id = s.id_map.getD p₂.2 "" := hwf _ _ hget₂
      intro hcol
      exact nodup_getD_ne s.id_map hid p₁.2 p₂.2 hlt₁ hlt₂ hne
        (hb1 ▸ hb2 ▸ hcol)

/-! ## `search_hybrid` -/

/-- One value of the `combined_scores` dict: the artifact with its decomposed
text score, vector score and combined score. -/
structure HybridEntry where
  artifact : Artifact
  text_score : ℝ
  vector_score : ℝ
  combined_score : ℝ

/-- The vector-derived score `max(0, 1 - distance / max_distance)` with the
fixed normalization constant `max_distance = 2.0`. -/
noncomputable def vector_score_of (r : SearchResult) : ℝ :=
  max 0 (1 - r.distance / 2)

/-- The descending sort relation of
`sorted(..., key=lambda x: x["combined_score"], reverse=True)`. -/
def combge (e₁ e₂ : HybridEntry) : Prop := e₂.combined_score ≤ e₁.combined_score

noncomputable instance : DecidableRel combge :=
  fun e₁ e₂ => Real.decidableLE e₂.combined_score e₁.combined_score

instance : IsTotal HybridEntry combge :=
  ⟨fun a b => le_total b.combined_score a.combined_score⟩

instance : IsTrans HybridEntry combge := ⟨fun _ _ _ h₁ h₂ => le_trans h₂ h₁⟩

/-- The first loop of `search_hybrid`: every text result at rank `i` is
entered into the dict with text score `1 / (i + 1)`, vector score 0, and
combined score `text_score * text_weight`. -/
noncomputable def text_loop (tw : ℝ) :
    ℕ → List Artifact → List (String × HybridEntry) → List (String × HybridEntry)
  | _, [], d => d
  | i, a :: rest, d =>
    text_loop tw (i + 1) rest
      (dictSet d a.id ⟨a, 1 / (i + 1 : ℝ), 0, (1 / (i + 1 : ℝ)) * tw⟩)

/-- The second loop of `search_hybrid`: each vector result either updates the
existing entry of its artifact id (setting the vector score and adding
`vector_score * vector_weight` to the combined score) or appends a fresh
vector-only entry. -/
noncomputable def vector_loop (vw : ℝ) :
    List SearchResult → List (String × HybridEntry) → List (String × HybridEntry)
  | [], d => d
  | r :: rest, d =>
    vector_loop vw rest
      (match dictGet d r.artifact.id with
       | some e =>
         dictSet d r.artifact.id
           { e with vector_score := vector_score_of r,
                    combined_score := e.combined_score + vector_score_of r * vw }
       | none =>
         dictSet d r.artifact.id
           ⟨r.artifact, 0, vector_score_of r, vector_score_of r * vw⟩)

/-- Embedding of `AcceleratedSearch.search_hybrid`: lexical results (limit
`k*2`) scored by rank, vector results (`search_similar`, `k*2`) scored by
normalized distance, fused by artifact id in one dict, sorted by descending
combined score and truncated to `k`.  An exception escaping `search_similar`'s
fallback propagates. -/
noncomputable def search_hybrid (db : BrainDB) (s : SearchState) (q : String)
    (qe : List ℚ) (k : ℕ) (tw vw : ℝ) (filters : Option Filters) :
    Except String (List HybridEntry) :=
  match search_similar db s qe (k * 2) filters with
  | .error m => .error m
  | .ok vres =>
    let d := vector_loop vw vres
      (text_loop tw 0 (db.search_artifacts q (k * 2) filters) [])
    .ok ((List.insertionSort combge (d.map Prod.snd)).take k)

/-! ## Dict lemmas for the score-fusion loops -/

/-- An unfindable key does not occur among the keys. -/
lemma dictGet_none_not_mem {β : Type} (d : List (String × β)) (k : String)
    (h : dictGet d k = none) : k ∉ d.map Prod.fst := by
  induction d with
  | nil => simp
  | cons p rest ih =>
    rw [dictGet_cons] at h
    by_cases hp : p.1 = k
    · rw [if_pos hp] at h
      exact Option.noConfusion h
    · rw [if_neg hp] at h
      rw [List.map_cons, List.mem_cons]
      rintro (rfl | hmem)
      · exact hp rfl
      · exact ih h hmem

/-- Unfolding lemma for `dictSet` on a nonempty dict. -/
lemma dictSet_cons {β : Type} (p : String × β) (rest : List (String × β))
    (k : String) (v : β) :
    dictSet (p :: rest) k v
      = if p.1 = k then (k, v) :: rest else p :: dictSet rest k v := rfl

/-- A found entry is a member of the dict. -/
lemma dictGet_mem {β : Type} (d : List (String × β)) (k : String) (v : β)
    (h : dictGet d k = some v) : (k, v) ∈ d := by
  induction d with
  | nil => exact Option.noConfusion h
  | cons p rest ih =>
    rw [dictGet_cons] at h
    by_cases hp : p.1 = k
    · rw [if_pos hp] at h
      injection h with h'
      have hkv : (k, v) = p := by rw [← hp, ← h']
      rw [hkv]
      exact List.mem_cons_self p rest
    · rw [if_neg hp] at h
      exact List.mem_cons_of_mem p (ih h)

/-- Assigning an absent key appends the entry. -/
lemma dictSet_append {β : Type} (d : List (String × β)) (k : String) (v : β)
    (h : dictGet d k = none) : dictSet d k v = d ++ [(k, v)] := by
  induction d with
  | nil => rfl
  | cons p rest ih =>
    rw [dictGet_cons] at h
    by_cases hp : p.1 = k
    · rw [if_pos hp] at h
      exact Option.noConfusion h
    · rw [if_neg hp] at h
      rw [dictSet_cons, if_neg hp, ih h]
      rfl

/-- Assigning a present key replaces in place and keeps the key list. -/
lemma dictSet_keys_some {β : Type} (d : List (String × β)) (k : String)
    (e v : β) (h : dictGet d k = some e) :
    (dictSet d k v).map Prod.fst = d.map Prod.fst := by
  induction d with
  | nil => exact Option.noConfusion h
  | cons p rest ih =>
    rw [dictGet_cons] at h
    by_cases hp : p.1 = k
    · rw [dictSet_cons, if_pos hp, List.map_cons, List.map_cons, hp]
    · rw [if_neg hp] at h
      rw [dictSet_cons, if_neg hp, List.map_cons, List.map_cons, ih h]

/-- Membership after an assignment: the new entry, or an old entry under a
different key (keys pairwise distinct). -/
lemma mem_dictSet {β : Type} (d : List (String × β)) (k : String) (v : β)
    (p : String × β) (hkeys : (d.map Prod.fst).Nodup)
    (hp : p ∈ dictSet d k v) : p = (k, v) ∨ (p ∈ d ∧ p.1 ≠ k) := by
  induction d with
  | nil =>
    rcases List.mem_singleton.mp hp with rfl
    exact Or.inl rfl
  | cons q rest ih =>
    rw [List.map_cons, List.nodup_cons] at hkeys
    by_cases hq : q.1 = k
    · rw [dictSet_cons, if_pos hq] at hp
      rcases List.mem_cons.mp hp with rfl | hmem
      · exact Or.inl rfl
      · refine Or.inr ⟨List.mem_cons_of_mem q hmem, fun hpk => ?_⟩
        exact hkeys.1 (hq ▸ hpk ▸ List.mem_map_of_mem Prod.fst hmem)
    · rw [dictSet_cons, if_neg hq] at hp
      rcases List.mem_cons.mp hp with hpq | hmem
      · rw [hpq]
        exact Or.inr ⟨List.mem_cons_self q rest, hq⟩
      · rcases ih hkeys.2 hmem with h | ⟨hmem', hne⟩
        · exact Or.inl h
        · exact Or.inr ⟨List.mem_cons_of_mem q hmem', hne⟩

/-- Appending a fresh entry leaves other keys unfindable. -/
lemma dictGet_append_singleton_none {β : Type} (d : List (String × β))
    (k k' : String) (v : β) (h : dictGet d k = none) (hk : k ≠ k') :
    dictGet (d ++ [(k', v)]) k = none := by
  induction d with
  | nil =>
    rw [List.nil_append, dictGet_cons, if_neg (fun h' => hk h'.symm)]
    rfl
  | cons p rest ih =>
    rw [dictGet_cons] at h
    by_cases hp : p.1 = k
    · rw [if_pos hp] at h
      exact Option.noConfusion h
    · rw [if_neg hp] at h
      rw [List.cons_append, dictGet_cons, if_neg hp]
      exact ih h

/-! ## Closed form of the text loop -/

/-- The dict entry created for the text result at rank `i`. -/
noncomputable def text_entry (tw : ℝ) (i : ℕ) (a : Artifact) :
    String × HybridEntry :=
  (a.id, ⟨a, 1 / (i + 1 : ℝ), 0, (1 / (i + 1 : ℝ)) * tw⟩)

/-- The entries created for a run of text results starting at rank `i`. -/
noncomputable def text_entries (tw : ℝ) :
    ℕ → List Artifact → List (String × HybridEntry)
  | _, [] => []
  | i, a :: rest => text_entry tw i a :: text_entries tw (i + 1) rest

/-- With pairwise-distinct text ids that are all absent from the starting
dict, the text loop appends one entry per text result, in rank order. -/
lemma text_loop_eq (tw : ℝ) :
    ∀ (T : List Artifact) (i : ℕ) (d : List (String × HybridEntry)),
      (∀ a ∈ T, dictGet d a.id = none) → (T.map (·.id)).Nodup →
      text_loop tw i T d = d ++ text_entries tw i T := by
  intro T
  induction T with
  | nil =>
    intro i d _ _
    rw [text_loop, text_entries, List.append_nil]
  | cons a rest ih =>
    intro i d habs hnd
    rw [List.map_cons, List.nodup_cons] at hnd
    rw [text_loop, text_entries,
      dictSet_append d a.id _ (habs a (List.mem_cons_self a rest))]
    have habs' : ∀ b ∈ rest,
        dictGet (d ++ [(a.id, (⟨a, 1 / (i + 1 : ℝ), 0,
          (1 / (i + 1 : ℝ)) * tw⟩ : HybridEntry))]) b.id = none := by
      intro b hb
      refine dictGet_append_singleton_none d b.id a.id _
        (habs b (List.mem_cons_of_mem a hb)) (fun hba => ?_)
      exact hnd.1 (hba ▸ List.mem_map_of_mem (·.id) hb)
    rw [ih (i + 1) _ habs' hnd.2, List.append_assoc, List.singleton_append]
    rfl

/-- Every entry produced by `text_entries` is the entry of some rank of the
text result list. -/
lemma text_entries_mem (tw : ℝ) :
    ∀ (T : List Artifact) (i : ℕ) (p : String × HybridEntry),
      p ∈ text_entries tw i T →
      ∃ j a, T.get? j = some a ∧ p = text_entry tw (i + j) a := by
  intro T
  induction T with
  | nil =>
    intro i p hp
    exact absurd hp (List.not_mem_nil p)
  | cons a rest ih =>
    intro i p hp
    rw [text_entries] at hp
    rcases List.mem_cons.mp hp with rfl | hp'
    · exact ⟨0, a, rfl, by rw [Nat.add_zero]⟩
    · obtain ⟨j, b, hj, hpe⟩ := ih (i + 1) p hp'
      refine ⟨j + 1, b, hj, ?_⟩
      rw [hpe]
      have : i + 1 + j = i + (j + 1) := by omega
      rw [this]

/-- The keys of the text entries are the text ids, in order. -/
lemma text_entries_keys (tw : ℝ) :
    ∀ (T : List Artifact) (i : ℕ),
      (text_entries tw i T).map Prod.fst = T.map (·.id) := by
  intro T
  induction T with
  | nil => intro i; rfl
  | cons a rest ih =>
    intro i
    rw [text_entries, List.map_cons, List.map_cons, ih (i + 1)]
    rfl

/-! ## Invariant of the score-fusion dict -/

/-- Text-score characterization of one dict entry: either zero (the id is not
a lexical hit) or the rank-based score `1 / (rank + 1)` of its lexical rank. -/
def tsChar (T : List Artifact) (p : String × HybridEntry) : Prop :=
  (p.2.text_score = 0 ∧ p.1 ∉ T.map (·.id))
  ∨ ∃ j a, T.get? j = some a ∧ a.id = p.1 ∧ p.2.text_score = 1 / (j + 1 : ℝ)

/-- Vector-score characterization of one dict entry over the processed vector
results: either zero (no vector hit yet) or the normalized score of its
vector result. -/
def vsChar (V : List SearchResult) (p : String × HybridEntry) : Prop :=
  (p.2.vector_score = 0 ∧ p.1 ∉ V.map (·.artifact.id))
  ∨ ∃ r, r ∈ V ∧ r.artifact.id = p.1 ∧ p.2.vector_score = vector_score_of r

/-- Full invariant of one dict entry: key coherence, the combined-score
identity, and both score characterizations. -/
def entryInv (tw vw : ℝ) (T : List Artifact) (V : List SearchResult)
    (p : String × HybridEntry) : Prop :=
  p.1 = p.2.artifact.id
  ∧ p.2.combined_score = p.2.text_score * tw + p.2.vector_score * vw
  ∧ tsChar T p ∧ vsChar V p

/-- The invariant is stable under extending the processed vector results with
a result of a different id. -/
lemma entryInv_extend (tw vw : ℝ) (T : List Artifact) (V₁ : List SearchResult)
    (r : SearchResult) (p : String × HybridEntry)
    (hne : p.1 ≠ r.artifact.id) (h : entryInv tw vw T V₁ p) :
    entryInv tw vw T (V₁ ++ [r]) p := by
  obtain ⟨h1, h2, h3, h4⟩ := h
  refine ⟨h1, h2, h3, ?_⟩
  rcases h4 with ⟨hvs, hmem⟩ | ⟨r₀, hr₀, hid, hvs⟩
  · refine Or.inl ⟨hvs, fun hm => ?_⟩
    rw [List.map_append, List.mem_append] at hm
    rcases hm with hm | hm
    · exact hmem hm
    · simp only [List.map_cons, List.map_nil, List.mem_singleton] at hm
      exact hne hm
  · exact Or.inr ⟨r₀, List.mem_append_left _ hr₀, hid, hvs⟩

/-- The dict built by the text loop satisfies the invariant with no vector
results processed, its keys are exactly the (pairwise distinct) text ids, and
every text id is a key. -/
lemma text_dict_inv (tw vw : ℝ) (T : List Artifact)
    (hT : (T.map (·.id)).Nodup) :
    ((text_entries tw 0 T).map Prod.fst).Nodup
    ∧ (∀ a ∈ T, a.id ∈ (text_entries tw 0 T).map Prod.fst)
    ∧ ∀ p ∈ text_entries tw 0 T, entryInv tw vw T [] p := by
  rw [text_entries_keys]
  refine ⟨hT, fun a ha => List.mem_map_of_mem (·.id) ha, ?_⟩
  intro p hp
  obtain ⟨j, a, hj, hpe⟩ := text_entries_mem tw T 0 p hp
  rw [Nat.zero_add] at hpe
  subst hpe
  unfold entryInv text_entry tsChar vsChar
  refine ⟨rfl, ?_, Or.inr ⟨j, a, hj, rfl, rfl⟩, Or.inl ⟨rfl, by simp⟩⟩
  dsimp only
  ring

/-- Running the vector loop over the remaining vector results preserves the
dict invariant: distinct keys, every text id present, and every entry
satisfying the score characterizations, now over all processed results. -/
lemma vector_loop_inv (tw vw : ℝ) (T : List Artifact) :
    ∀ (V₂ V₁ : List SearchResult) (d : List (String × HybridEntry)),
      ((V₁ ++ V₂).map (·.artifact.id)).Nodup →
      (d.map Prod.fst).Nodup →
      (∀ a ∈ T, a.id ∈ d.map Prod.fst) →
      (∀ p ∈ d, entryInv tw vw T V₁ p) →
      ((vector_loop vw V₂ d).map Prod.fst).Nodup
      ∧ (∀ a ∈ T, a.id ∈ (vector_loop vw V₂ d).map Prod.fst)
      ∧ ∀ p ∈ vector_loop vw V₂ d, entryInv tw vw T (V₁ ++ V₂) p := by
  intro V₂
  induction V₂ with
  | nil =>
    intro V₁ d hV hk hsub hinv
    rw [vector_loop, List.append_nil]
    exact ⟨hk, hsub, hinv⟩
  | cons r rest ih =>
    intro V₁ d hV hk hsub hinv
    have hmapV : ((V₁ ++ r :: rest).map (·.artifact.id))
        = V₁.map (·.artifact.id)
          ++ (r.artifact.id :: rest.map (·.artifact.id)) := by
      rw [List.map_append, List.map_cons]
    rw [hmapV] at hV
    rcases List.nodup_append.mp hV with ⟨hn1, hn2, hdisj⟩
    have haidrest : r.artifact.id ∉ rest.map (·.artifact.id) :=
      (List.nodup_cons.mp hn2).1
    have haidV1 : r.artifact.id ∉ V₁.map (·.artifact.id) :=
      fun hmem => hdisj hmem (List.mem_cons_self _ _)
    have hVnext : (((V₁ ++ [r]) ++ rest).map (·.artifact.id)).Nodup := by
      rw [List.append_assoc, List.singleton_append, hmapV]
      exact hV
    rw [vector_loop]
    cases hg : dictGet d r.artifact.id with
    | some e =>
      dsimp only
      set e' : HybridEntry :=
        { e with vector_score := vector_score_of r,
                 combined_score := e.combined_score + vector_score_of r * vw }
        with he'
      have hkeys' : (dictSet d r.artifact.id e').map Prod.fst = d.map Prod.fst :=
        dictSet_keys_some d r.artifact.id e e' hg
      have hold := hinv (r.artifact.id, e) (dictGet_mem d r.artifact.id e hg)
      obtain ⟨ho1, ho2, ho3, ho4⟩ := hold
      have hvs0 : e.vector_score = 0 := by
        rcases ho4 with ⟨hvs, _⟩ | ⟨r₀, hr₀, hid, _⟩
        · exact hvs
        · refine absurd ?_ haidV1
          have hm : r₀.artifact.id ∈ V₁.map (·.artifact.id) :=
            List.mem_map_of_mem (·.artifact.id) hr₀
          rw [hid] at hm
          exact hm
      have hinv' : ∀ p ∈ dictSet d r.artifact.id e',
          entryInv tw vw T (V₁ ++ [r]) p := by
        intro p hp
        rcases mem_dictSet d r.artifact.id e' p hk hp with rfl | ⟨hpd, hpne⟩
        · refine ⟨ho1, ?_, ?_, ?_⟩
          · show e.combined_score + vector_score_of r * vw
              = e.text_score * tw + vector_score_of r * vw
            rw [ho2, hvs0]
            ring
          · exact ho3
          · exact Or.inr ⟨r, List.mem_append_right _ (List.mem_singleton_self r),
              rfl, rfl⟩
        · exact entryInv_extend tw vw T V₁ r p hpne (hinv p hpd)
      have hres := ih (V₁ ++ [r]) (dictSet d r.artifact.id e')
        hVnext (hkeys' ▸ hk) (fun a ha => hkeys' ▸ hsub a ha) hinv'
      rw [List.append_assoc, List.singleton_append] at hres
      exact hres
    | none =>
      dsimp only
      set en : HybridEntry :=
        ⟨r.artifact, 0, vector_score_of r, vector_score_of r * vw⟩ with hen
      have hset : dictSet d r.artifact.id en = d ++ [(r.artifact.id, en)] :=
        dictSet_append d r.artifact.id en hg
      have hnotkey : r.artifact.id ∉ d.map Prod.fst :=
        dictGet_none_not_mem d r.artifact.id hg
      have hkeys' : (dictSet d r.artifact.id en).map Prod.fst
          = d.map Prod.fst ++ [r.artifact.id] := by
        rw [hset, List.map_append]
        rfl
      have hknd : ((dictSet d r.artifact.id en).map Prod.fst).Nodup := by
        rw [hkeys']
        refine List.nodup_append.mpr ⟨hk, List.nodup_singleton _, ?_⟩
        intro x hx hx'
        rw [List.mem_singleton] at hx'
        exact hnotkey (hx' ▸ hx)
      have hsub' : ∀ a ∈ T, a.id ∈ (dictSet d r.artifact.id en).map Prod.fst := by
        intro a ha
        rw [hkeys']
        exact List.mem_append_left _ (hsub a ha)
      have hinv' : ∀ p ∈ dictSet d r.artifact.id en,
          entryInv tw vw T (V₁ ++ [r]) p := by
        intro p hp
        rw [hset] at hp
        rcases List.mem_append.mp hp with hpd | hpe
        · have hpne : p.1 ≠ r.artifact.id :=
            fun hpk => hnotkey (hpk ▸ List.mem_map_of_mem Prod.fst hpd)
          exact entryInv_extend tw vw T V₁ r p hpne (hinv p hpd)
        · rcases List.mem_singleton.mp hpe with rfl
          refine ⟨rfl, ?_, ?_, ?_⟩
          · show vector_score_of r * vw = 0 * tw + vector_score_of r * vw
            ring
          · refine Or.inl ⟨rfl, fun hmem => ?_⟩
            obtain ⟨a, ha, haid⟩ := List.mem_map.mp hmem
            refine hnotkey ?_
            have hm := hsub a ha
            rw [haid] at hm
            exact hm
          · exact Or.inr ⟨r, List.mem_append_right _ (List.mem_singleton_self r),
              rfl, rfl⟩
      have hres := ih (V₁ ++ [r]) (dictSet d r.artifact.id en)
        hVnext hknd hsub' hinv'
      rw [List.append_assoc, List.singleton_append] at hres
      exact hres

/-- Positions in a list with pairwise-distinct images are determined by the
image. -/
lemma nodup_map_get?_inj {α β : Type} (f : α → β) (l : List α)
    (h : (l.map f).Nodup) (i j : ℕ) (a b : α)
    (hi : l.get? i = some a) (hj : l.get? j = some b) (hab : f a = f b) :
    i = j := by
  have h1 : (l.map f).get? i = some (f a) := by rw [List.get?_map, hi]; rfl
  have h2 : (l.map f).get? j = some (f b) := by rw [List.get?_map, hj]; rfl
  have hlen : i < (l.map f).length := by
    rw [List.length_map]
    exact (List.get?_eq_some.mp hi).1
  exact List.get?_inj hlen h (by rw [h1, h2, hab])

/-- C5: each hybrid result's text score is the lexical rank score
`1 / (rank + 1)`, its vector score is `max(0, 1 - distance / 2.0)` for its
vector result, its combined score is
`text_score * text_weight + vector_score * vector_weight` and lies in
`[0, text_weight + vector_weight]` for nonnegative weights, and the returned
list is sorted by non-increasing combined score.  Proved under the database
well-formedness guarantees (pairwise-distinct ids in the lexical results, the
mapping and the recent window; lookups return the artifact of the id). -/
theorem search_hybrid_scores_sorted (db : BrainDB) (s : SearchState)
    (q : String) (qe : List ℚ) (k : ℕ) (tw vw : ℝ) (f : Option Filters)
    (res : List HybridEntry)
    (htw : 0 ≤ tw) (hvw : 0 ≤ vw)
    (hT : ((db.search_artifacts q (k * 2) f).map (·.id)).Nodup)
    (hid : s.id_map.Nodup)
    (hwf : ∀ i a, db.get_artifact_extended i = some a → a.id = i)
    (hwin : (db.get_artifacts_with_extended.map (·.id)).Nodup)
    (hres : search_hybrid db s q qe k tw vw f = .ok res) :
    (∀ e ∈ res,
      e.combined_score = e.text_score * tw + e.vector_score * vw
      ∧ 0 ≤ e.combined_score ∧ e.combined_score ≤ tw + vw
      ∧ (∀ j a, (db.search_artifacts q (k * 2) f).get? j = some a →
          a.id = e.artifact.id → e.text_score = 1 / (j + 1 : ℝ))
      ∧ (∀ V, search_similar db s qe (k * 2) f = .ok V →
          ∀ r ∈ V, r.artifact.id = e.artifact.id →
            e.vector_score = vector_score_of r))
    ∧ List.Sorted combge res := by
  unfold search_hybrid at hres
  cases hV : search_similar db s qe (k * 2) f with
  | error m =>
    rw [hV] at hres
    exact Except.noConfusion hres
  | ok V =>
    rw [hV] at hres
    dsimp only at hres
    injection hres with hres'
    have htl : text_loop tw 0 (db.search_artifacts q (k * 2) f) []
        = text_entries tw 0 (db.search_artifacts q (k * 2) f) := by
      rw [text_loop_eq tw _ 0 [] (fun a _ => rfl) hT, List.nil_append]
    obtain ⟨hb1, hb2, hb3⟩ := text_dict_inv tw vw _ hT
    have hVnd := search_similar_ids_nodup db s qe (k * 2) f hid hwf hwin V hV
    have hinv := vector_loop_inv tw vw (db.search_artifacts q (k * 2) f) V []
      (text_entries tw 0 (db.search_artifacts q (k * 2) f))
      (by rw [List.nil_append]; exact hVnd) hb1 hb2 hb3
    rw [List.nil_append] at hinv
    have hdist := search_similar_dist_nonneg db s qe (k * 2) f V hV
    constructor
    · intro e he
      rw [← hres'] at he
      have he' : e ∈ (vector_loop vw V
          (text_loop tw 0 (db.search_artifacts q (k * 2) f) [])).map Prod.snd :=
        (List.perm_insertionSort combge _).subset (List.take_subset k _ he)
      rw [htl] at he'
      obtain ⟨p, hpd, hpe⟩ := List.mem_map.mp he'
      obtain ⟨h1, h2, h3, h4⟩ := hinv.2.2 p hpd
      subst hpe
      have hts : 0 ≤ p.2.text_score ∧ p.2.text_score ≤ 1 := by
        rcases h3 with ⟨h0, _⟩ | ⟨j, a, _, _, htse⟩
        · rw [h0]
          exact ⟨le_refl 0, zero_le_one⟩
        · rw [htse]
          have hj1 : (0 : ℝ) < (j : ℝ) + 1 := by positivity
          constructor
          · positivity
          · rw [div_le_one hj1]
            have := Nat.cast_nonneg (α := ℝ) j
            linarith
      have hvs : 0 ≤ p.2.vector_score ∧ p.2.vector_score ≤ 1 := by
        rcases h4 with ⟨h0, _⟩ | ⟨r, hrV, _, hvse⟩
        · rw [h0]
          exact ⟨le_refl 0, zero_le_one⟩
        · rw [hvse]
          unfold vector_score_of
          refine ⟨le_max_left 0 _, max_le zero_le_one ?_⟩
          have := hdist r hrV
          linarith
      refine ⟨h2, ?_, ?_, ?_, ?_⟩
      · rw [h2]
        exact add_nonneg (mul_nonneg hts.1 htw) (mul_nonneg hvs.1 hvw)
      · rw [h2]
        exact add_le_add (mul_le_of_le_one_left htw hts.2)
          (mul_le_of_le_one_left hvw hvs.2)
      · intro j a hget haid
        rcases h3 with ⟨h0, hnot⟩ | ⟨j₀, a₀, hget₀, haid₀, htse⟩
        · exfalso
          refine hnot ?_
          have hm : a.id ∈ (db.search_artifacts q (k * 2) f).map (·.id) :=
            List.mem_map_of_mem (·.id) (List.get?_mem hget)
          rw [haid, ← h1] at hm
          exact hm
        · have hids : a.id = a₀.id := by rw [haid, haid₀, h1]
          have hjj : j = j₀ := nodup_map_get?_inj (·.id) _ hT j j₀ a a₀
            hget hget₀ hids
          rw [htse, hjj]
      · intro V' hV' r hrV' hrid
        have hVV : V' = V := by
          injection hV' with h
          exact h.symm
        rw [hVV] at hrV'
        rcases h4 with ⟨h0, hnot⟩ | ⟨r₀, hr₀V, hr₀id, hvse⟩
        · exfalso
          refine hnot ?_
          have hm : r.artifact.id ∈ V.map (·.artifact.id) :=
            List.mem_map_of_mem (·.artifact.id) hrV'
          rw [hrid, ← h1] at hm
          exact hm
        · have hrr : r = r₀ := by
            refine List.inj_on_of_nodup_map hVnd hrV' hr₀V ?_
            show r.artifact.id = r₀.artifact.id
            rw [hrid, hr₀id, h1]
          rw [hvse, hrr]
    · rw [← hres']
      exact List.Pairwise.sublist (List.take_sublist k _)
        (List.sorted_insertionSort combge _)

/-- Witness for C5 at a concrete state: unit weights and the empty generation
produce the (sorted) empty hybrid result through the theorem. -/
theorem search_hybrid_scores_sorted_witness :
    (0 : ℝ) ≤ 1 ∧ List.Sorted combge ([] : List HybridEntry) :=
  ⟨zero_le_one,
   (search_hybrid_scores_sorted dbEmpty sEmpty2 "" qDim2 3 1 1 none []
      zero_le_one zero_le_one List.nodup_nil List.nodup_nil
      (fun _ _ h => Option.noConfusion h) List.nodup_nil rfl).2⟩
